import Mathlib

/-!
Verification of the PII de-identification pipeline (src/app.py).

The embedding models the core function `deidentify_data`:
  * CSV parsing as done by the Python `csv.reader` on an `io.StringIO`
    (excel dialect: comma delimiter, double-quote quoting, doubled-quote
    escaping, CRLF or LF accepted on input), as a character state machine;
  * CSV serialization as done by `csv.writer` (excel dialect, minimal
    quoting, CRLF line terminator);
  * the external presidio engines (AnalyzerEngine / AnonymizerEngine) as an
    abstract record of fallible functions, since they are consumed, not
    implemented, by the repository;
  * the per-cell scan / mask step, the row and grid loops threading the
    `total_pii_found` dictionary (an insertion-ordered association list in
    the model, matching Python dict semantics), and the report rendering.
-/

namespace PII

/-! ### Data model: detected entities, operators, engines -/

/-- A detected PII span as returned by the presidio analyzer: an
entity-type label plus span bounds.  The pipeline reads only
`entity_type` and forwards whole results to the anonymizer.  The score
field of the library type is never consulted by the pipeline and is
omitted. -/
structure RecognizerResult where
  entity_type : String
  start : Nat
  stop : Nat
deriving DecidableEq, Repr

/-- An anonymizer operator, as built on line 40 of src/app.py:
`OperatorConfig("replace", {"new_value": "XXXXXX"})`. -/
inductive Operator where
  | replace (new_value : String)
deriving DecidableEq, Repr

/-- The operators dictionary passed to every anonymize call
(line 40 of src/app.py): a single uniform DEFAULT rule replacing every
span with the literal XXXXXX. -/
def default_operators : List (String × Operator) :=
  [("DEFAULT", Operator.replace "XXXXXX")]

/-- The two external presidio engines consumed by the pipeline.  Calls
may fail (raise), which the model renders as `Except`. -/
structure Engines where
  analyze : String → String → Except String (List RecognizerResult)
  anonymize : String → List RecognizerResult → List (String × Operator) →
      Except String String

/-! ### CSV reading: the Python csv.reader state machine (excel dialect)

The reader consumes the input character by character.  States mirror the
CPython `_csv.c` parser: start of record, start of field, inside an
unquoted field, inside a quoted field, just after a quote inside a quoted
field, and eating the end of a CRLF line.  A bare carriage return in the
middle of a line raises, as CPython does. -/

inductive PState where
  | sRecord
  | sField
  | sInField
  | sQuoted
  | sQuoteQ
  | sEatCrnl
deriving DecidableEq, Repr

/-- One pass of the csv.reader over the remaining characters.  `f` is the
current field buffer, `fs` the fields of the current record, `rs` the
completed records. -/
def parseAux : PState → List Char → List Char → List String →
    List (List String) → Except String (List (List String))
  | .sRecord, [], _, _, rs => .ok rs
  | .sRecord, c :: cs, f, fs, rs =>
    if c = '\n' then parseAux .sRecord cs [] [] (rs ++ [[]])
    else if c = '\r' then parseAux .sEatCrnl cs [] [] (rs ++ [[]])
    else if c = '"' then parseAux .sQuoted cs [] fs rs
    else if c = ',' then parseAux .sField cs [] (fs ++ [String.mk f]) rs
    else parseAux .sInField cs (f ++ [c]) fs rs
  | .sField, [], f, fs, rs => .ok (rs ++ [fs ++ [String.mk f]])
  | .sField, c :: cs, f, fs, rs =>
    if c = '\n' then parseAux .sRecord cs [] [] (rs ++ [fs ++ [String.mk f]])
    else if c = '\r' then parseAux .sEatCrnl cs [] [] (rs ++ [fs ++ [String.mk f]])
    else if c = '"' then parseAux .sQuoted cs [] fs rs
    else if c = ',' then parseAux .sField cs [] (fs ++ [String.mk f]) rs
    else parseAux .sInField cs (f ++ [c]) fs rs
  | .sInField, [], f, fs, rs => .ok (rs ++ [fs ++ [String.mk f]])
  | .sInField, c :: cs, f, fs, rs =>
    if c = '\n' then parseAux .sRecord cs [] [] (rs ++ [fs ++ [String.mk f]])
    else if c = '\r' then parseAux .sEatCrnl cs [] [] (rs ++ [fs ++ [String.mk f]])
    else if c = ',' then parseAux .sField cs [] (fs ++ [String.mk f]) rs
    else parseAux .sInField cs (f ++ [c]) fs rs
  | .sQuoted, [], f, fs, rs => .ok (rs ++ [fs ++ [String.mk f]])
  | .sQuoted, c :: cs, f, fs, rs =>
    if c = '"' then parseAux .sQuoteQ cs f fs rs
    else parseAux .sQuoted cs (f ++ [c]) fs rs
  | .sQuoteQ, [], f, fs, rs => .ok (rs ++ [fs ++ [String.mk f]])
  | .sQuoteQ, c :: cs, f, fs, rs =>
    if c = '"' then parseAux .sQuoted cs (f ++ ['"']) fs rs
    else if c = ',' then parseAux .sField cs [] (fs ++ [String.mk f]) rs
    else if c = '\n' then parseAux .sRecord cs [] [] (rs ++ [fs ++ [String.mk f]])
    else if c = '\r' then parseAux .sEatCrnl cs [] [] (rs ++ [fs ++ [String.mk f]])
    else parseAux .sInField cs (f ++ [c]) fs rs
  | .sEatCrnl, [], _, _, rs => .ok rs
  | .sEatCrnl, c :: cs, f, fs, rs =>
    if c = '\n' then parseAux .sRecord cs [] [] rs
    else if c = '\r' then parseAux .sEatCrnl cs f fs rs
    else .error "new-line character seen in unquoted field"

/-- `csv.reader(io.StringIO(s))`, fully consumed. -/
def csvParse (s : String) : Except String (List (List String)) :=
  parseAux .sRecord s.data [] [] []

/-! ### CSV writing: the Python csv.writer (excel dialect, minimal quoting) -/

/-- Characters that force quoting under minimal quoting: the delimiter,
the quote character, and the characters of the CRLF line terminator. -/
def isCsvSpecial (c : Char) : Bool :=
  c == ',' || c == '"' || c == '\r' || c == '\n'

/-- Double every quote character, as done inside a quoted field. -/
def escQuotes : List Char → List Char
  | [] => []
  | c :: cs => if c = '"' then '"' :: '"' :: escQuotes cs else c :: escQuotes cs

/-- Serialize one field under minimal quoting. -/
def encodeField (f : String) : List Char :=
  if f.data.any isCsvSpecial then '"' :: (escQuotes f.data ++ ['"']) else f.data

/-- Serialize a comma-separated nonempty run of fields. -/
def encodeCells : String → List String → List Char
  | f, [] => encodeField f
  | f, g :: gs => encodeField f ++ ',' :: encodeCells g gs

/-- Serialize one record with the CRLF terminator.  A record holding a
single empty field is written as a pair of quotes, as csv.writer does, to
keep it distinguishable from an empty record. -/
def encodeRow : List String → List Char
  | [] => ['\r', '\n']
  | [f] => (if f.data.isEmpty then ['"', '"'] else encodeField f) ++ ['\r', '\n']
  | f :: g :: gs => encodeCells f (g :: gs) ++ ['\r', '\n']

/-- Serialize a grid: `csv.writer(buffer).writerows(rows)` then
`buffer.getvalue()`. -/
def writeRowsStr (g : List (List String)) : String :=
  String.mk (g.foldr (fun r acc => encodeRow r ++ acc) [])

/-! ### The cell scan, count map, row loop and report -/

/-- One character of the whitespace set stripped by Python `str.strip()`
(Py_UNICODE_ISSPACE): the codepoints 09-0D, 1C-20, 85, A0, 1680,
2000-200A, 2028-2029, 202F, 205F and 3000. -/
def pyIsSpace (c : Char) : Bool :=
  let n := c.toNat
  (decide (0x09 ≤ n) && decide (n ≤ 0x0D)) ||
  (decide (0x1C ≤ n) && decide (n ≤ 0x20)) ||
  n == 0x85 || n == 0xA0 || n == 0x1680 ||
  (decide (0x2000 ≤ n) && decide (n ≤ 0x200A)) ||
  n == 0x2028 || n == 0x2029 || n == 0x202F || n == 0x205F || n == 0x3000

/-- Python `cell.strip() == ""` : true exactly when every character of the
cell is whitespace in the Unicode sense of `str.strip`. -/
def stripIsEmpty (cell : String) : Bool :=
  cell.data.all pyIsSpace

/-- Lines 33-42 of src/app.py: analyze the cell text for PII entities with
the fixed working language, and when one or more entities come back,
anonymize the original text with the full result list under the uniform
replace-with-XXXXXX operators.  Returns the output cell text together with
the result list that the counting loop will consume (empty when nothing
was detected). -/
def scanCell (E : Engines) (cell : String) :
    Except String (String × List RecognizerResult) :=
  match E.analyze cell "en" with
  | .error e => .error e
  | .ok [] => .ok (cell, [])
  | .ok (r :: rs) =>
    match E.anonymize cell (r :: rs) default_operators with
    | .error e => .error e
    | .ok masked => .ok (masked, r :: rs)

/-- The running count dictionary `total_pii_found`, modelled as an
insertion-ordered association list (Python dict iteration order). -/
abbrev Counts := List (String × Nat)

/-- Line 47 of src/app.py:
`total_pii_found[k] = total_pii_found.get(k, 0) + 1` — update in place
when the key exists, append `(k, 1)` otherwise. -/
def bump : Counts → String → Counts
  | [], k => [(k, 1)]
  | (k', v) :: rest, k =>
    if k' = k then (k', v + 1) :: rest else (k', v) :: bump rest k

/-- Look a key up in the count map, defaulting to zero. -/
def countOf : Counts → String → Nat
  | [], _ => 0
  | (k', v) :: rest, k => if k' = k then v else countOf rest k

/-- Total of the count map summed across all entity types. -/
def totalCount (m : Counts) : Nat :=
  (m.map Prod.snd).sum

/-- Lines 28-47 of src/app.py: the loop over the cells of one data row.
Whitespace-only cells are skipped (copied through untrimmed); other cells
are scanned, their masked text written at the same position, and each
returned entity bumps its type count. -/
def processRow (E : Engines) : List String → Counts →
    Except String (List String × Counts)
  | [], counts => .ok ([], counts)
  | cell :: rest, counts =>
    if stripIsEmpty cell then
      match processRow E rest counts with
      | .error e => .error e
      | .ok (rest', counts') => .ok (cell :: rest', counts')
    else
      match scanCell E cell with
      | .error e => .error e
      | .ok (cell', results) =>
        match processRow E rest
            (results.foldl (fun m r => bump m r.entity_type) counts) with
        | .error e => .error e
        | .ok (rest', counts') => .ok (cell' :: rest', counts')

/-- Lines 26-49 of src/app.py: the loop over the data rows. -/
def processRows (E : Engines) : List (List String) → Counts →
    Except String (List (List String) × Counts)
  | [], counts => .ok ([], counts)
  | row :: rest, counts =>
    match processRow E row counts with
    | .error e => .error e
    | .ok (row', counts') =>
      match processRows E rest counts' with
      | .error e => .error e
      | .ok (rest', counts'') => .ok (row' :: rest', counts'')

/-- Python `key.replace('_', ' ')` for the single-character pattern. -/
def underscoreToSpace (s : String) : String :=
  String.mk (s.data.map fun c => if c = '_' then ' ' else c)

/-- Python `str.title()` on a character list: a letter that follows a
non-letter is uppercased, a letter that follows a letter is lowercased,
other characters pass through (ASCII behaviour). -/
def titleAux : Bool → List Char → List Char
  | _, [] => []
  | prevCased, c :: cs =>
    if c.isAlpha then
      (if prevCased then c.toLower else c.toUpper) :: titleAux true cs
    else c :: titleAux false cs

/-- Python `str.title()`. -/
def pyTitle (s : String) : String :=
  String.mk (titleAux false s.data)

/-- One rendered report line, line 55 of src/app.py:
`f"Total {key.replace('_', ' ').title()} found: {count}\n"`. -/
def report_line (key : String) (count : Nat) : String :=
  "Total " ++ pyTitle (underscoreToSpace key) ++ " found: " ++ Nat.repr count ++ "\n"

/-- Lines 51-57 of src/app.py: the summary report rendering. -/
def buildReport (total_pii_found : Counts) : String :=
  let r0 := "Summary Report\n" ++ "--------------\n"
  if total_pii_found.isEmpty then
    r0 ++ "No PII found in the provided data.\n"
  else
    total_pii_found.foldl (fun acc kc => acc ++ report_line kc.1 kc.2) r0

/-- Lines 13-64 of src/app.py: the whole pipeline.  `next(reader)` on an
input with zero rows raises StopIteration, rendered as an error; parse
errors and engine errors propagate. -/
def deidentify_data (E : Engines) (input_csv_content : String) :
    Except String (String × String) :=
  match csvParse input_csv_content with
  | .error e => .error e
  | .ok [] => .error "StopIteration"
  | .ok (header :: dataRows) =>
    match processRows E dataRows [] with
    | .error e => .error e
    | .ok (outRows, total_pii_found) =>
      .ok (writeRowsStr (header :: outRows), buildReport total_pii_found)

/-! ### Concrete engines used to instantiate the theorems -/

/-- Replace the half-open span from `s` to `e` inside `text`. -/
def applyReplace (text : List Char) (s e : Nat) (sub : List Char) : List Char :=
  text.take s ++ sub ++ text.drop e

/-- Modelled from the spec: the external Masking Engine interface
(presidio AnonymizerEngine, absent from src/) — "replace every span, of
every entity type, with the literal XXXXXX"; each detected span is
replaced by the new value of the DEFAULT replace operator, spans being
applied from the rightmost one so earlier indices stay valid. -/
def specMask (text : String) (ents : List RecognizerResult)
    (ops : List (String × Operator)) : String :=
  let sub : List Char :=
    match ops with
    | ("DEFAULT", Operator.replace v) :: _ => v.data
    | _ => []
  String.mk (ents.foldr (fun r acc => applyReplace acc r.start r.stop sub) text.data)

/-- An engine that never detects anything. -/
def noopEngine : Engines where
  analyze := fun _ _ => .ok []
  anonymize := fun text _ _ => .ok text

/-- An engine that flags one email address, masking per the spec
interface. -/
def c1Engine : Engines where
  analyze := fun text _ =>
    if text = "alice@example.com" then .ok [⟨"EMAIL_ADDRESS", 0, 17⟩] else .ok []
  anonymize := fun text ents ops => .ok (specMask text ents ops)

/-- An engine that flags the literal XXXXXX as one credit card, masking
per the spec interface: the masked text then coincides with the input. -/
def c3Engine : Engines where
  analyze := fun text _ =>
    if text = "XXXXXX" then .ok [⟨"CREDIT_CARD", 0, 6⟩] else .ok []
  anonymize := fun text ents ops => .ok (specMask text ents ops)

/-- An engine whose analyze call always raises. -/
def failEngine : Engines where
  analyze := fun _ _ => .error "boom"
  anonymize := fun _ _ _ => .error "boom"

/-- Rendering of one report line following the words of the spec sentence
behind claim C7: the entity type label with underscores replaced by
spaces and each word capitalized, followed by the colon, the count and
the word found. -/
def claimReportLine (key : String) (count : Nat) : String :=
  pyTitle (underscoreToSpace key) ++ ": " ++ Nat.repr count ++ " found"

/-- Number of entities of type `k` that the detector reports for one data
cell: zero for blank cells, which are never scanned, and for failing
calls, which abort the run anyway. -/
def cellHits (E : Engines) (k : String) (cell : String) : Nat :=
  if stripIsEmpty cell then 0
  else
    match E.analyze cell "en" with
    | .ok res => res.countP (fun r => r.entity_type == k)
    | .error _ => 0

/-- Entities of type `k` reported across one row. -/
def rowHits (E : Engines) (k : String) (row : List String) : Nat :=
  (row.map (cellHits E k)).sum

/-- Entities of type `k` reported across the data rows. -/
def gridHits (E : Engines) (k : String) (rows : List (List String)) : Nat :=
  (rows.map (rowHits E k)).sum

/-! ## Basic string and list facts -/

theorem str_mk_data (s : String) : String.mk s.data = s := rfl

theorem str_data_append (a b : String) : (a ++ b).data = a.data ++ b.data := rfl

theorem str_ext (a b : String) (h : a.data = b.data) : a = b :=
  congrArg String.mk h

theorem str_append_assoc (a b c : String) : a ++ b ++ c = a ++ (b ++ c) := by
  apply str_ext
  simp [str_data_append, List.append_assoc]

theorem str_append_empty (a : String) : a ++ "" = a := by
  apply str_ext
  simp [str_data_append]

theorem str_empty_append (a : String) : "" ++ a = a := by
  apply str_ext
  simp [str_data_append]

/-! ## CSV reader lemmas, leading to the write/parse round trip -/

theorem not_special (c : Char) (h : isCsvSpecial c = false) :
    c ≠ ',' ∧ c ≠ '"' ∧ c ≠ '\r' ∧ c ≠ '\n' := by
  simp only [isCsvSpecial, Bool.or_eq_false_iff, beq_eq_false_iff_ne, ne_eq] at h
  exact ⟨h.1.1.1, h.1.1.2, h.1.2, h.2⟩

/-- At the start of a record, any character other than a line break is
handled exactly as at the start of a field. -/
theorem record_step_eq_field_step (c : Char) (cs f fs rs)
    (h1 : c ≠ '\n') (h2 : c ≠ '\r') :
    parseAux .sRecord (c :: cs) f fs rs = parseAux .sField (c :: cs) f fs rs := by
  simp only [parseAux, if_neg h1, if_neg h2]

/-- Inside an unquoted field, a run of ordinary characters is appended to
the field buffer. -/
theorem inField_swallow (f : List Char) (h : ∀ c ∈ f, isCsvSpecial c = false) :
    ∀ rest acc fs rs, parseAux .sInField (f ++ rest) acc fs rs =
      parseAux .sInField rest (acc ++ f) fs rs := by
  induction f with
  | nil => intro rest acc fs rs; simp
  | cons c cs ih =>
    intro rest acc fs rs
    obtain ⟨hc1, _, hc3, hc4⟩ := not_special c (h c (by simp))
    rw [List.cons_append]
    simp only [parseAux, if_neg hc4, if_neg hc3, if_neg hc1]
    rw [ih (fun x hx => h x (by simp [hx])) rest (acc ++ [c]) fs rs]
    simp [List.append_assoc]

/-- Inside a quoted field, the escaped form of a run of characters is
appended to the field buffer. -/
theorem quoted_swallow (f : List Char) :
    ∀ rest acc fs rs, parseAux .sQuoted (escQuotes f ++ rest) acc fs rs =
      parseAux .sQuoted rest (acc ++ f) fs rs := by
  induction f with
  | nil => intro rest acc fs rs; simp [escQuotes]
  | cons c cs ih =>
    intro rest acc fs rs
    by_cases hc : c = '"'
    · subst hc
      simp only [escQuotes, if_pos rfl, List.cons_append]
      simp [parseAux]
      rw [ih rest (acc ++ ['"']) fs rs]
      simp [List.append_assoc]
    · simp only [escQuotes, if_neg hc, List.cons_append]
      simp only [parseAux, if_neg hc]
      rw [ih rest (acc ++ [c]) fs rs]
      simp [List.append_assoc]

/-- Negation of the quoting test, giving per-character facts. -/
theorem no_special_of_not_any (l : List Char) (hq : ¬ l.any isCsvSpecial = true) :
    ∀ x ∈ l, isCsvSpecial x = false := by
  intro x hx
  by_contra hcx
  have hcx' : isCsvSpecial x = true := by
    cases hxx : isCsvSpecial x
    · exact absurd hxx hcx
    · rfl
  rw [List.any_eq_true] at hq
  exact hq ⟨x, hx, hcx'⟩

/-- Consuming one serialized field followed by a comma, from the start of
a field: the field round-trips and the reader waits at the next field. -/
theorem field_comma (f : String) (rest : List Char) (fs rs) :
    parseAux .sField (encodeField f ++ ',' :: rest) [] fs rs =
      parseAux .sField rest [] (fs ++ [f]) rs := by
  by_cases hq : f.data.any isCsvSpecial
  · have step1 : parseAux .sField (encodeField f ++ ',' :: rest) [] fs rs
        = parseAux .sQuoted ((escQuotes f.data ++ ['"']) ++ ',' :: rest) [] fs rs := by
      simp only [encodeField, if_pos hq, List.cons_append]
      rfl
    rw [step1, List.append_assoc, List.singleton_append]
    rw [quoted_swallow f.data ('"' :: ',' :: rest) [] fs rs, List.nil_append]
    have step2 : parseAux .sQuoted ('"' :: ',' :: rest) f.data fs rs
        = parseAux .sField rest [] (fs ++ [String.mk f.data]) rs := rfl
    rw [step2, str_mk_data]
  · have hall := no_special_of_not_any f.data hq
    rcases hf : f.data with _ | ⟨c, cs⟩
    · have hfe : f = "" := by
        rw [← str_mk_data f, hf]
      subst hfe
      rfl
    · rw [hf] at hall
      obtain ⟨h1, h2, h3, h4⟩ := not_special c (hall c (by simp))
      have step1 : parseAux .sField (encodeField f ++ ',' :: rest) [] fs rs
          = parseAux .sInField (cs ++ ',' :: rest) [c] fs rs := by
        unfold encodeField
        rw [if_neg hq, hf, List.cons_append]
        simp only [parseAux, if_neg h4, if_neg h3, if_neg h2, if_neg h1, List.nil_append]
      rw [step1]
      rw [inField_swallow cs (fun x hx => hall x (by simp [hx])) (',' :: rest) [c] fs rs]
      have step2 : parseAux .sInField (',' :: rest) ([c] ++ cs) fs rs
          = parseAux .sField rest [] (fs ++ [String.mk ([c] ++ cs)]) rs := rfl
      rw [step2, show ([c] ++ cs : List Char) = f.data from by rw [hf]; rfl, str_mk_data]

/-- Consuming one serialized field followed by the CRLF terminator, from
the start of a field: the record is completed with the field appended. -/
theorem field_crlf (f : String) (rest : List Char) (fs rs) :
    parseAux .sField (encodeField f ++ '\r' :: '\n' :: rest) [] fs rs =
      parseAux .sRecord rest [] [] (rs ++ [fs ++ [f]]) := by
  by_cases hq : f.data.any isCsvSpecial
  · have step1 : parseAux .sField (encodeField f ++ '\r' :: '\n' :: rest) [] fs rs
        = parseAux .sQuoted ((escQuotes f.data ++ ['"']) ++ '\r' :: '\n' :: rest) [] fs rs := by
      simp only [encodeField, if_pos hq, List.cons_append]
      rfl
    rw [step1, List.append_assoc, List.singleton_append]
    rw [quoted_swallow f.data ('"' :: '\r' :: '\n' :: rest) [] fs rs, List.nil_append]
    have step2 : parseAux .sQuoted ('"' :: '\r' :: '\n' :: rest) f.data fs rs
        = parseAux .sRecord rest [] [] (rs ++ [fs ++ [String.mk f.data]]) := rfl
    rw [step2, str_mk_data]
  · have hall := no_special_of_not_any f.data hq
    rcases hf : f.data with _ | ⟨c, cs⟩
    · have hfe : f = "" := by
        rw [← str_mk_data f, hf]
      subst hfe
      rfl
    · rw [hf] at hall
      obtain ⟨h1, h2, h3, h4⟩ := not_special c (hall c (by simp))
      have step1 : parseAux .sField (encodeField f ++ '\r' :: '\n' :: rest) [] fs rs
          = parseAux .sInField (cs ++ '\r' :: '\n' :: rest) [c] fs rs := by
        unfold encodeField
        rw [if_neg hq, hf, List.cons_append]
        simp only [parseAux, if_neg h4, if_neg h3, if_neg h2, if_neg h1, List.nil_append]
      rw [step1]
      rw [inField_swallow cs (fun x hx => hall x (by simp [hx])) ('\r' :: '\n' :: rest) [c] fs rs]
      have step2 : parseAux .sInField ('\r' :: '\n' :: rest) ([c] ++ cs) fs rs
          = parseAux .sRecord rest [] [] (rs ++ [fs ++ [String.mk ([c] ++ cs)]]) := rfl
      rw [step2, show ([c] ++ cs : List Char) = f.data from by rw [hf]; rfl, str_mk_data]

/-- The comma step also applies at the very start of a record. -/
theorem record_field_comma (f : String) (rest : List Char) (rs) :
    parseAux .sRecord (encodeField f ++ ',' :: rest) [] [] rs =
      parseAux .sField rest [] [f] rs := by
  by_cases hq : f.data.any isCsvSpecial
  · have hswitch : parseAux .sRecord (encodeField f ++ ',' :: rest) [] [] rs =
        parseAux .sField (encodeField f ++ ',' :: rest) [] [] rs := by
      simp only [encodeField, if_pos hq, List.cons_append]
      exact record_step_eq_field_step '"' _ _ _ _ (by decide) (by decide)
    rw [hswitch, field_comma]
    rfl
  · have hall := no_special_of_not_any f.data hq
    rcases hf : f.data with _ | ⟨c, cs⟩
    · have hfe : f = "" := by
        rw [← str_mk_data f, hf]
      subst hfe
      rfl
    · obtain ⟨_, _, h3, h4⟩ := not_special c (hall c (by rw [hf]; simp))
      have hswitch : parseAux .sRecord (encodeField f ++ ',' :: rest) [] [] rs =
          parseAux .sField (encodeField f ++ ',' :: rest) [] [] rs := by
        unfold encodeField
        rw [if_neg hq, hf, List.cons_append]
        exact record_step_eq_field_step c _ _ _ _ h4 h3
      rw [hswitch, field_comma]
      rfl

/-- The CRLF step also applies at the very start of a record, as long as
the single field is not serialized to nothing. -/
theorem record_field_crlf (f : String) (rest : List Char) (rs)
    (hne : f.data ≠ []) :
    parseAux .sRecord (encodeField f ++ '\r' :: '\n' :: rest) [] [] rs =
      parseAux .sRecord rest [] [] (rs ++ [[f]]) := by
  by_cases hq : f.data.any isCsvSpecial
  · have hswitch : parseAux .sRecord (encodeField f ++ '\r' :: '\n' :: rest) [] [] rs =
        parseAux .sField (encodeField f ++ '\r' :: '\n' :: rest) [] [] rs := by
      simp only [encodeField, if_pos hq, List.cons_append]
      exact record_step_eq_field_step '"' _ _ _ _ (by decide) (by decide)
    rw [hswitch, field_crlf]
    rfl
  · have hall := no_special_of_not_any f.data hq
    rcases hf : f.data with _ | ⟨c, cs⟩
    · exact absurd hf hne
    · obtain ⟨_, _, h3, h4⟩ := not_special c (hall c (by rw [hf]; simp))
      have hswitch : parseAux .sRecord (encodeField f ++ '\r' :: '\n' :: rest) [] [] rs =
          parseAux .sField (encodeField f ++ '\r' :: '\n' :: rest) [] [] rs := by
        unfold encodeField
        rw [if_neg hq, hf, List.cons_append]
        exact record_step_eq_field_step c _ _ _ _ h4 h3
      rw [hswitch, field_crlf]
      rfl

/-- Consuming a nonempty serialized run of fields terminated by CRLF,
from the start of a field. -/
theorem cells_consume (gs : List String) : ∀ (g : String) fs rs (rest : List Char),
    parseAux .sField (encodeCells g gs ++ '\r' :: '\n' :: rest) [] fs rs =
      parseAux .sRecord rest [] [] (rs ++ [fs ++ g :: gs]) := by
  induction gs with
  | nil =>
    intro g fs rs rest
    rw [encodeCells, field_crlf]
  | cons g2 gs' ih =>
    intro g fs rs rest
    rw [encodeCells, List.append_assoc, List.cons_append, field_comma]
    rw [ih g2 (fs ++ [g]) rs rest]
    simp

/-- Consuming one serialized record from the start of a record appends
exactly that record. -/
theorem row_consume (r : List String) (rest : List Char) (rs) :
    parseAux .sRecord (encodeRow r ++ rest) [] [] rs =
      parseAux .sRecord rest [] [] (rs ++ [r]) := by
  match r with
  | [] => rfl
  | [f] =>
    by_cases hf : f.data.isEmpty
    · have hfe : f = "" := by
        rw [← str_mk_data f, List.isEmpty_iff.mp hf]
      subst hfe
      rfl
    · have step1 : parseAux .sRecord (encodeRow [f] ++ rest) [] [] rs
          = parseAux .sRecord (encodeField f ++ '\r' :: '\n' :: rest) [] [] rs := by
        rw [encodeRow, if_neg hf, List.append_assoc]
        rfl
      rw [step1]
      exact record_field_crlf f rest rs (by simpa [List.isEmpty_iff] using hf)
  | f :: g :: gs =>
    have step1 : parseAux .sRecord (encodeRow (f :: g :: gs) ++ rest) [] [] rs
        = parseAux .sRecord (encodeField f ++ ',' :: (encodeCells g gs ++ '\r' :: '\n' :: rest))
            [] [] rs := by
      rw [encodeRow, encodeCells, List.append_assoc, List.append_assoc, List.cons_append]
      rfl
    rw [step1, record_field_comma]
    rw [cells_consume gs g [f] rs rest]
    rfl

/-- Consuming a serialized grid from the start of a record appends all of
its records. -/
theorem grid_consume (g : List (List String)) : ∀ (rest : List Char) rs,
    parseAux .sRecord ((g.foldr (fun r acc => encodeRow r ++ acc) []) ++ rest) [] [] rs =
      parseAux .sRecord rest [] [] (rs ++ g) := by
  induction g with
  | nil => intro rest rs; simp
  | cons r t ih =>
    intro rest rs
    simp only [List.foldr]
    rw [List.append_assoc, row_consume, ih]
    simp

/-- Round trip: parsing the serializer output recovers the grid exactly. -/
theorem csv_roundtrip (g : List (List String)) : csvParse (writeRowsStr g) = .ok g := by
  unfold csvParse writeRowsStr
  have h := grid_consume g [] []
  rw [List.append_nil] at h
  simpa [parseAux] using h

/-! ## Count map lemmas -/

theorem countOf_bump_self (m : Counts) (k : String) :
    countOf (bump m k) k = countOf m k + 1 := by
  induction m with
  | nil => simp [bump, countOf]
  | cons kv rest ih =>
    obtain ⟨k', v⟩ := kv
    by_cases hk : k' = k
    · subst hk
      simp [bump, countOf]
    · simp [bump, countOf, hk, ih]

theorem countOf_bump_ne (m : Counts) (k' k : String) (h : k' ≠ k) :
    countOf (bump m k') k = countOf m k := by
  induction m with
  | nil => simp [bump, countOf, h]
  | cons kv rest ih =>
    obtain ⟨a, v⟩ := kv
    by_cases ha : a = k'
    · subst ha
      simp [bump, countOf, h]
    · by_cases hak : a = k
      · subst hak
        simp [bump, countOf, ha]
      · simp [bump, countOf, ha, hak, ih]

theorem totalCount_bump (m : Counts) (k : String) :
    totalCount (bump m k) = totalCount m + 1 := by
  induction m with
  | nil => simp [bump, totalCount]
  | cons kv rest ih =>
    obtain ⟨k', v⟩ := kv
    by_cases hk : k' = k
    · subst hk
      simp [bump, totalCount]
      omega
    · simp [bump, totalCount, hk] at ih ⊢
      omega

theorem totalCount_foldl_bump (res : List RecognizerResult) : ∀ (m : Counts),
    totalCount (res.foldl (fun m r => bump m r.entity_type) m) = totalCount m + res.length := by
  induction res with
  | nil => intro m; simp
  | cons r t ih =>
    intro m
    simp only [List.foldl, List.length_cons]
    rw [ih (bump m r.entity_type), totalCount_bump]
    omega

theorem countOf_foldl_bump (res : List RecognizerResult) : ∀ (m : Counts) (k : String),
    countOf (res.foldl (fun m r => bump m r.entity_type) m) k
      = countOf m k + res.countP (fun r => r.entity_type == k) := by
  induction res with
  | nil => intro m k; rfl
  | cons r t ih =>
    intro m k
    simp only [List.foldl, List.countP_cons]
    rw [ih (bump m r.entity_type) k]
    by_cases hk : r.entity_type = k
    · rw [hk, countOf_bump_self]
      simp [hk]
      omega
    · rw [countOf_bump_ne m r.entity_type k hk]
      simp [hk]

theorem bump_pos (m : Counts) (k : String) (hm : ∀ kv ∈ m, 0 < kv.2) :
    ∀ kv ∈ bump m k, 0 < kv.2 := by
  induction m with
  | nil =>
    intro kv hkv
    simp [bump] at hkv
    simp [hkv]
  | cons kv0 rest ih =>
    obtain ⟨k', v⟩ := kv0
    intro kv hkv
    by_cases hk : k' = k
    · subst hk
      simp [bump] at hkv
      rcases hkv with h | h
      · rw [h]
        simp
      · exact hm kv (by simp [h])
    · simp [bump, hk] at hkv
      rcases hkv with h | h
      · rw [h]
        exact hm (k', v) (by simp)
      · exact ih (fun kv hkv => hm kv (by simp [hkv])) kv h

theorem foldl_bump_pos (res : List RecognizerResult) : ∀ (m : Counts),
    (∀ kv ∈ m, 0 < kv.2) →
    ∀ kv ∈ res.foldl (fun m r => bump m r.entity_type) m, 0 < kv.2 := by
  induction res with
  | nil => intro m hm; exact hm
  | cons r t ih =>
    intro m hm
    exact ih (bump m r.entity_type) (bump_pos m r.entity_type hm)

theorem countOf_pos_mem (m : Counts) (k : String) (h : 0 < countOf m k) :
    ∃ v, (k, v) ∈ m := by
  induction m with
  | nil => simp [countOf] at h
  | cons kv rest ih =>
    obtain ⟨k', v⟩ := kv
    by_cases hk : k' = k
    · subst hk
      exact ⟨v, by simp⟩
    · rw [countOf, if_neg hk] at h
      obtain ⟨v', hv'⟩ := ih h
      exact ⟨v', by simp [hv']⟩

theorem mem_countOf_pos (m : Counts) (k : String) (v : Nat)
    (hm : ∀ kv ∈ m, 0 < kv.2) (h : (k, v) ∈ m) : 0 < countOf m k := by
  induction m with
  | nil => simp at h
  | cons kv0 rest ih =>
    obtain ⟨k0, v0⟩ := kv0
    by_cases hk : k0 = k
    · subst hk
      rw [countOf, if_pos rfl]
      have := hm (k0, v0) (by simp)
      simpa using this
    · rw [countOf, if_neg hk]
      rcases List.mem_cons.mp h with h0 | h0
      · exact absurd (congrArg Prod.fst h0).symm hk
      · exact ih (fun kv hkv => hm kv (by simp [hkv])) h0

/-! ## Pipeline step and inversion lemmas -/

theorem scanCell_ok (E : Engines) (cell out : String) (res : List RecognizerResult)
    (h : scanCell E cell = .ok (out, res)) :
    E.analyze cell "en" = .ok res ∧
      ((res = [] ∧ out = cell) ∨
        (res ≠ [] ∧ E.anonymize cell res default_operators = .ok out)) := by
  unfold scanCell at h
  split at h
  · simp at h
  · next heq =>
    simp at h
    obtain ⟨h1, h2⟩ := h
    subst h1
    subst h2
    exact ⟨heq, Or.inl ⟨rfl, rfl⟩⟩
  · next r rs heq =>
    split at h
    · simp at h
    · next masked heq2 =>
      simp at h
      obtain ⟨h1, h2⟩ := h
      subst h1
      subst h2
      exact ⟨heq, Or.inr ⟨by simp, heq2⟩⟩

theorem processRow_cons_blank (E : Engines) (cell : String) (rest : List String)
    (counts : Counts) (hb : stripIsEmpty cell = true) :
    processRow E (cell :: rest) counts =
      match processRow E rest counts with
      | .error e => .error e
      | .ok (rest', counts') => .ok (cell :: rest', counts') := by
  simp only [processRow, if_pos hb]

theorem processRow_cons_scan (E : Engines) (cell : String) (rest : List String)
    (counts : Counts) (hb : stripIsEmpty cell = false) :
    processRow E (cell :: rest) counts =
      match scanCell E cell with
      | .error e => .error e
      | .ok (cell', results) =>
        match processRow E rest (results.foldl (fun m r => bump m r.entity_type) counts) with
        | .error e => .error e
        | .ok (rest', counts') => .ok (cell' :: rest', counts') := by
  simp only [processRow]
  rw [if_neg (by simp [hb])]

/-- Inversion for one successful row step. -/
theorem processRow_ok_cons (E : Engines) (cell : String) (rest : List String)
    (counts : Counts) (row' : List String) (counts' : Counts)
    (h : processRow E (cell :: rest) counts = .ok (row', counts')) :
    (stripIsEmpty cell = true ∧
      ∃ rest', processRow E rest counts = .ok (rest', counts') ∧ row' = cell :: rest')
    ∨ (stripIsEmpty cell = false ∧
      ∃ cellOut results rest',
        scanCell E cell = .ok (cellOut, results) ∧
        processRow E rest (results.foldl (fun m r => bump m r.entity_type) counts) =
          .ok (rest', counts') ∧
        row' = cellOut :: rest') := by
  by_cases hb : stripIsEmpty cell
  · left
    refine ⟨hb, ?_⟩
    rw [processRow_cons_blank E cell rest counts hb] at h
    split at h
    · simp at h
    · next rest' counts2 heq =>
      simp at h
      obtain ⟨h1, h2⟩ := h
      subst h1
      subst h2
      exact ⟨rest', heq, rfl⟩
  · right
    have hb' : stripIsEmpty cell = false := by simpa using hb
    refine ⟨hb', ?_⟩
    rw [processRow_cons_scan E cell rest counts hb'] at h
    split at h
    · simp at h
    · next cellOut results heq =>
      split at h
      · simp at h
      · next rest' counts2 heq2 =>
        simp at h
        obtain ⟨h1, h2⟩ := h
        subst h1
        subst h2
        exact ⟨cellOut, results, rest', heq, heq2, rfl⟩

/-! ## Derived row and grid lemmas -/

theorem processRow_length (E : Engines) : ∀ (row : List String) (counts : Counts)
    (row' : List String) (counts' : Counts),
    processRow E row counts = .ok (row', counts') → row'.length = row.length := by
  intro row
  induction row with
  | nil =>
    intro counts row' counts' h
    simp [processRow] at h
    obtain ⟨h1, h2⟩ := h
    subst h1
    rfl
  | cons cell rest ih =>
    intro counts row' counts' h
    rcases processRow_ok_cons E cell rest counts row' counts' h with
      ⟨_, rest', hrec, hrow⟩ | ⟨_, cellOut, results, rest', _, hrec, hrow⟩
    · subst hrow
      simp [ih counts rest' counts' hrec]
    · subst hrow
      simp [ih _ rest' counts' hrec]

theorem processRow_ok_engines (E : Engines) : ∀ (row : List String) (counts : Counts)
    (p : List String × Counts), processRow E row counts = .ok p →
    ∀ cell ∈ row, stripIsEmpty cell = false →
      ∃ res, E.analyze cell "en" = .ok res ∧
        (res = [] ∨ ∃ masked, E.anonymize cell res default_operators = .ok masked) := by
  intro row
  induction row with
  | nil =>
    intro counts p h cell hc
    simp at hc
  | cons c0 rest ih =>
    intro counts p h cell hc hnb
    obtain ⟨row', counts'⟩ := p
    rcases processRow_ok_cons E c0 rest counts row' counts' h with
      ⟨hb, rest', hrec, _⟩ | ⟨hb, cellOut, results, rest', hscan, hrec, _⟩
    · rcases List.mem_cons.mp hc with hceq | hcm
      · subst hceq
        simp [hb] at hnb
      · exact ih counts (rest', counts') hrec cell hcm hnb
    · rcases List.mem_cons.mp hc with hceq | hcm
      · subst hceq
        obtain ⟨ha, hcase⟩ := scanCell_ok E cell cellOut results hscan
        rcases hcase with ⟨hres, _⟩ | ⟨hne, hmask⟩
        · exact ⟨results, ha, Or.inl hres⟩
        · exact ⟨results, ha, Or.inr ⟨cellOut, hmask⟩⟩
      · exact ih _ (rest', counts') hrec cell hcm hnb

theorem processRow_countOf (E : Engines) : ∀ (row : List String) (m0 : Counts)
    (row' : List String) (m : Counts),
    processRow E row m0 = .ok (row', m) →
    ∀ k, countOf m k = countOf m0 k + rowHits E k row := by
  intro row
  induction row with
  | nil =>
    intro m0 row' m h k
    simp [processRow] at h
    obtain ⟨h1, h2⟩ := h
    subst h2
    simp [rowHits]
  | cons c0 rest ih =>
    intro m0 row' m h k
    rcases processRow_ok_cons E c0 rest m0 row' m h with
      ⟨hb, rest', hrec, _⟩ | ⟨hb, cellOut, results, rest', hscan, hrec, _⟩
    · rw [ih m0 rest' m hrec k]
      simp [rowHits, cellHits, hb]
    · have ha := (scanCell_ok E c0 cellOut results hscan).1
      rw [ih _ rest' m hrec k, countOf_foldl_bump]
      simp [rowHits, cellHits, hb, ha]
      omega

theorem processRow_pos (E : Engines) : ∀ (row : List String) (m0 : Counts)
    (row' : List String) (m : Counts), processRow E row m0 = .ok (row', m) →
    (∀ kv ∈ m0, 0 < kv.2) → ∀ kv ∈ m, 0 < kv.2 := by
  intro row
  induction row with
  | nil =>
    intro m0 row' m h hm
    simp [processRow] at h
    obtain ⟨h1, h2⟩ := h
    subst h2
    exact hm
  | cons c0 rest ih =>
    intro m0 row' m h hm
    rcases processRow_ok_cons E c0 rest m0 row' m h with
      ⟨hb, rest', hrec, _⟩ | ⟨hb, cellOut, results, rest', hscan, hrec, _⟩
    · exact ih m0 rest' m hrec hm
    · exact ih _ rest' m hrec (foldl_bump_pos results m0 hm)

/-- Inversion for one successful grid step. -/
theorem processRows_ok_cons (E : Engines) (row : List String)
    (rest : List (List String)) (counts : Counts) (rows' : List (List String))
    (counts' : Counts)
    (h : processRows E (row :: rest) counts = .ok (rows', counts')) :
    ∃ row' counts2 rest', processRow E row counts = .ok (row', counts2) ∧
      processRows E rest counts2 = .ok (rest', counts') ∧ rows' = row' :: rest' := by
  simp only [processRows] at h
  split at h
  · simp at h
  · next row' counts2 heq =>
    split at h
    · simp at h
    · next rest' counts3 heq2 =>
      simp at h
      obtain ⟨h1, h2⟩ := h
      subst h1
      subst h2
      exact ⟨row', counts2, rest', heq, heq2, rfl⟩

theorem processRows_shape (E : Engines) : ∀ (rows : List (List String)) (m0 : Counts)
    (rows' : List (List String)) (m : Counts),
    processRows E rows m0 = .ok (rows', m) →
    List.Forall₂ (fun a b => List.length a = List.length b) rows rows' := by
  intro rows
  induction rows with
  | nil =>
    intro m0 rows' m h
    simp [processRows] at h
    obtain ⟨h1, h2⟩ := h
    subst h1
    exact List.Forall₂.nil
  | cons row rest ih =>
    intro m0 rows' m h
    obtain ⟨row', counts2, rest', hrow, hrest, hshape⟩ :=
      processRows_ok_cons E row rest m0 rows' m h
    subst hshape
    exact List.Forall₂.cons (processRow_length E row m0 row' counts2 hrow).symm
      (ih counts2 rest' m hrest)

theorem processRows_ok_engines (E : Engines) : ∀ (rows : List (List String)) (m0 : Counts)
    (p : List (List String) × Counts), processRows E rows m0 = .ok p →
    ∀ row ∈ rows, ∀ cell ∈ row, stripIsEmpty cell = false →
      ∃ res, E.analyze cell "en" = .ok res ∧
        (res = [] ∨ ∃ masked, E.anonymize cell res default_operators = .ok masked) := by
  intro rows
  induction rows with
  | nil =>
    intro m0 p h row hrow
    simp at hrow
  | cons row0 rest ih =>
    intro m0 p h row hrow cell hc hnb
    obtain ⟨rows', m⟩ := p
    obtain ⟨row', counts2, rest', hrowok, hrest, _⟩ :=
      processRows_ok_cons E row0 rest m0 rows' m h
    rcases List.mem_cons.mp hrow with hreq | hrm
    · subst hreq
      exact processRow_ok_engines E row m0 (row', counts2) hrowok cell hc hnb
    · exact ih counts2 (rest', m) hrest row hrm cell hc hnb

theorem processRows_countOf (E : Engines) : ∀ (rows : List (List String)) (m0 : Counts)
    (rows' : List (List String)) (m : Counts),
    processRows E rows m0 = .ok (rows', m) →
    ∀ k, countOf m k = countOf m0 k + gridHits E k rows := by
  intro rows
  induction rows with
  | nil =>
    intro m0 rows' m h k
    simp [processRows] at h
    obtain ⟨h1, h2⟩ := h
    subst h2
    simp [gridHits]
  | cons row rest ih =>
    intro m0 rows' m h k
    obtain ⟨row', counts2, rest', hrow, hrest, _⟩ :=
      processRows_ok_cons E row rest m0 rows' m h
    rw [ih counts2 rest' m hrest k, processRow_countOf E row m0 row' counts2 hrow k]
    simp [gridHits]
    omega

theorem processRows_pos (E : Engines) : ∀ (rows : List (List String)) (m0 : Counts)
    (rows' : List (List String)) (m : Counts),
    processRows E rows m0 = .ok (rows', m) →
    (∀ kv ∈ m0, 0 < kv.2) → ∀ kv ∈ m, 0 < kv.2 := by
  intro rows
  induction rows with
  | nil =>
    intro m0 rows' m h hm
    simp [processRows] at h
    obtain ⟨h1, h2⟩ := h
    subst h2
    exact hm
  | cons row rest ih =>
    intro m0 rows' m h hm
    obtain ⟨row', counts2, rest', hrow, hrest, _⟩ :=
      processRows_ok_cons E row rest m0 rows' m h
    exact ih counts2 rest' m hrest (processRow_pos E row m0 row' counts2 hrow hm)

/-! ## Processing rows with no detections -/

theorem processRow_nohit (E : Engines) : ∀ (row : List String) (m : Counts),
    (∀ cell ∈ row, E.analyze cell "en" = .ok []) →
    processRow E row m = .ok (row, m) := by
  intro row
  induction row with
  | nil => intro m _; rfl
  | cons cell rest ih =>
    intro m hall
    have hrest := ih m (fun c hc => hall c (by simp [hc]))
    by_cases hb : stripIsEmpty cell
    · rw [processRow_cons_blank E cell rest m hb, hrest]
    · have hb' : stripIsEmpty cell = false := by simpa using hb
      have hscan : scanCell E cell = .ok (cell, []) := by
        unfold scanCell
        rw [hall cell (by simp)]
      rw [processRow_cons_scan E cell rest m hb', hscan]
      simp only [List.foldl]
      rw [hrest]

theorem processRows_nohit (E : Engines) : ∀ (rows : List (List String)) (m : Counts),
    (∀ row ∈ rows, ∀ cell ∈ row, E.analyze cell "en" = .ok []) →
    processRows E rows m = .ok (rows, m) := by
  intro rows
  induction rows with
  | nil => intro m _; rfl
  | cons row rest ih =>
    intro m hall
    have hrow := processRow_nohit E row m (fun c hc => hall row (by simp) c hc)
    have hrest := ih m (fun r hr c hc => hall r (by simp [hr]) c hc)
    simp only [processRows]
    rw [hrow]
    show (match processRows E rest m with
      | Except.error e => Except.error e
      | Except.ok (rest', counts'') => Except.ok (row :: rest', counts'')) = Except.ok (row :: rest, m)
    rw [hrest]

/-! ## Engine congruence: blank cells are never sent to the detector -/

theorem scanCell_congr (E E2 : Engines) (cell : String)
    (hA : E.analyze cell "en" = E2.analyze cell "en")
    (hM : ∀ res, E.anonymize cell res default_operators =
      E2.anonymize cell res default_operators) :
    scanCell E cell = scanCell E2 cell := by
  unfold scanCell
  rw [← hA]
  cases E.analyze cell "en" with
  | error e => rfl
  | ok res =>
    cases res with
    | nil => rfl
    | cons r rs =>
      show (match E.anonymize cell (r :: rs) default_operators with
        | Except.error e => Except.error e
        | Except.ok masked => Except.ok (masked, r :: rs))
        = (match E2.anonymize cell (r :: rs) default_operators with
        | Except.error e => Except.error e
        | Except.ok masked => Except.ok (masked, r :: rs))
      rw [hM (r :: rs)]

theorem processRow_congr (E E2 : Engines)
    (hA : ∀ s, stripIsEmpty s = false → E.analyze s "en" = E2.analyze s "en")
    (hM : ∀ s res, stripIsEmpty s = false →
      E.anonymize s res default_operators = E2.anonymize s res default_operators) :
    ∀ (row : List String) (counts : Counts),
      processRow E row counts = processRow E2 row counts := by
  intro row
  induction row with
  | nil => intro counts; rfl
  | cons cell rest ih =>
    intro counts
    by_cases hb : stripIsEmpty cell
    · rw [processRow_cons_blank E cell rest counts hb,
        processRow_cons_blank E2 cell rest counts hb, ih]
    · have hb' : stripIsEmpty cell = false := by simpa using hb
      rw [processRow_cons_scan E cell rest counts hb',
        processRow_cons_scan E2 cell rest counts hb',
        scanCell_congr E E2 cell (hA cell hb') (fun res => hM cell res hb')]
      cases scanCell E2 cell with
      | error e => rfl
      | ok q =>
        obtain ⟨cOut, results⟩ := q
        show (match processRow E rest (results.foldl (fun m r => bump m r.entity_type) counts) with
          | Except.error e => Except.error e
          | Except.ok (rest', counts') => Except.ok (cOut :: rest', counts'))
          = (match processRow E2 rest (results.foldl (fun m r => bump m r.entity_type) counts) with
          | Except.error e => Except.error e
          | Except.ok (rest', counts') => Except.ok (cOut :: rest', counts'))
        rw [ih]

theorem processRows_congr (E E2 : Engines)
    (hA : ∀ s, stripIsEmpty s = false → E.analyze s "en" = E2.analyze s "en")
    (hM : ∀ s res, stripIsEmpty s = false →
      E.anonymize s res default_operators = E2.anonymize s res default_operators) :
    ∀ (rows : List (List String)) (counts : Counts),
      processRows E rows counts = processRows E2 rows counts := by
  intro rows
  induction rows with
  | nil => intro counts; rfl
  | cons row rest ih =>
    intro counts
    simp only [processRows]
    rw [processRow_congr E E2 hA hM row counts]
    cases processRow E2 row counts with
    | error e => rfl
    | ok p =>
      obtain ⟨row', counts2⟩ := p
      show (match processRows E rest counts2 with
        | Except.error e => Except.error e
        | Except.ok (rest', counts'') => Except.ok (row' :: rest', counts''))
        = (match processRows E2 rest counts2 with
        | Except.error e => Except.error e
        | Except.ok (rest', counts'') => Except.ok (row' :: rest', counts''))
      rw [ih]

/-! ## Whole pipeline inversion -/

theorem deidentify_ok_inversion (E : Engines) (input out rep : String)
    (h : deidentify_data E input = .ok (out, rep)) :
    ∃ hdr rows outRows m, csvParse input = .ok (hdr :: rows) ∧
      processRows E rows [] = .ok (outRows, m) ∧
      out = writeRowsStr (hdr :: outRows) ∧ rep = buildReport m := by
  unfold deidentify_data at h
  split at h
  · simp at h
  · simp at h
  · next hdr dataRows heq =>
    split at h
    · simp at h
    · next outRows m heq2 =>
      simp at h
      obtain ⟨h1, h2⟩ := h
      exact ⟨hdr, dataRows, outRows, m, heq, heq2, h1.symm, h2.symm⟩

/-! ## Report rendering lemmas -/

theorem str_foldl_shift (l : List String) : ∀ (a : String),
    l.foldl (fun r s => r ++ s) a = a ++ l.foldl (fun r s => r ++ s) "" := by
  induction l with
  | nil => intro a; exact (str_append_empty a).symm
  | cons x t ih =>
    intro a
    simp only [List.foldl]
    rw [ih (a ++ x), ih ("" ++ x), str_empty_append, str_append_assoc]

theorem str_join_cons (x : String) (l : List String) :
    String.join (x :: l) = x ++ String.join l := by
  unfold String.join
  simp only [List.foldl]
  rw [str_foldl_shift l ("" ++ x), str_empty_append]

theorem report_foldl (l : Counts) : ∀ (a : String),
    l.foldl (fun acc kc => acc ++ report_line kc.1 kc.2) a
      = a ++ String.join (l.map fun kc => report_line kc.1 kc.2) := by
  induction l with
  | nil =>
    intro a
    simp only [List.foldl, List.map]
    exact (str_append_empty a).symm
  | cons kc t ih =>
    intro a
    simp only [List.foldl, List.map]
    rw [ih (a ++ report_line kc.1 kc.2), str_join_cons, str_append_assoc]

/-! ## Small numeric helpers -/

theorem sum_pos_of_mem (l : List Nat) (x : Nat) (hx : x ∈ l) (hpos : 0 < x) :
    0 < l.sum := by
  induction l with
  | nil => simp at hx
  | cons a t ih =>
    rcases List.mem_cons.mp hx with h | h
    · subst h
      simp
      omega
    · have := ih h
      simp
      omega

theorem exists_pos_of_sum_pos (l : List Nat) (h : 0 < l.sum) : ∃ x ∈ l, 0 < x := by
  induction l with
  | nil => simp at h
  | cons a t ih =>
    by_cases ha : 0 < a
    · exact ⟨a, by simp, ha⟩
    · have ha0 : a = 0 := by omega
      subst ha0
      simp at h
      obtain ⟨x, hx, hxp⟩ := ih h
      exact ⟨x, by simp [hx], hxp⟩

/-! ## Claims -/

/-- Claim C1: for every non-blank data cell, if the Entity Detector
returns zero entities the cell appears in the output unchanged; if it
returns one or more entities, the Masking Engine is invoked on the
original cell text with the full list of detected entities under the
single uniform policy replacing every span with the fixed literal XXXXXX,
and the engine result is written into the output cell. -/
theorem claim_cell_scanner (E : Engines) (cell : String) (rest : List String)
    (counts : Counts) (hnb : stripIsEmpty cell = false) :
    default_operators = [("DEFAULT", Operator.replace "XXXXXX")]
    ∧ (E.analyze cell "en" = .ok [] →
        processRow E (cell :: rest) counts =
          Except.map (fun p => (cell :: p.1, p.2)) (processRow E rest counts))
    ∧ (∀ r rs masked, E.analyze cell "en" = .ok (r :: rs) →
        E.anonymize cell (r :: rs) default_operators = .ok masked →
        processRow E (cell :: rest) counts =
          Except.map (fun p => (masked :: p.1, p.2))
            (processRow E rest ((r :: rs).foldl (fun m x => bump m x.entity_type) counts))) := by
  refine ⟨rfl, ?_, ?_⟩
  · intro ha
    rw [processRow_cons_scan E cell rest counts hnb]
    have hscan : scanCell E cell = .ok (cell, []) := by
      unfold scanCell
      rw [ha]
    rw [hscan]
    show (match processRow E rest counts with
      | Except.error e => Except.error e
      | Except.ok (rest', counts') => Except.ok (cell :: rest', counts'))
      = Except.map (fun p => (cell :: p.1, p.2)) (processRow E rest counts)
    cases processRow E rest counts with
    | error e => rfl
    | ok p =>
      obtain ⟨a, b⟩ := p
      rfl
  · intro r rs masked ha hmask
    rw [processRow_cons_scan E cell rest counts hnb]
    have hscan : scanCell E cell = .ok (masked, r :: rs) := by
      unfold scanCell
      rw [ha]
      show (match E.anonymize cell (r :: rs) default_operators with
        | Except.error e => Except.error e
        | Except.ok masked2 => Except.ok (masked2, r :: rs)) = Except.ok (masked, r :: rs)
      rw [hmask]
    rw [hscan]
    show (match processRow E rest ((r :: rs).foldl (fun m x => bump m x.entity_type) counts) with
      | Except.error e => Except.error e
      | Except.ok (rest', counts') => Except.ok (masked :: rest', counts'))
      = Except.map (fun p => (masked :: p.1, p.2))
          (processRow E rest ((r :: rs).foldl (fun m x => bump m x.entity_type) counts))
    cases processRow E rest ((r :: rs).foldl (fun m x => bump m x.entity_type) counts) with
    | error e => rfl
    | ok p =>
      obtain ⟨a, b⟩ := p
      rfl

/-- Witness for claim C1 at a concrete engine and cell. -/
theorem claim_cell_scanner_witness :
    stripIsEmpty "alice@example.com" = false
    ∧ processRow c1Engine ["alice@example.com"] []
        = Except.map (fun p => ("XXXXXX" :: p.1, p.2))
            (processRow c1Engine []
              ([(⟨"EMAIL_ADDRESS", 0, 17⟩ : RecognizerResult)].foldl
                (fun m x => bump m x.entity_type) [])) := by
  refine ⟨rfl, ?_⟩
  exact (claim_cell_scanner c1Engine "alice@example.com" [] [] rfl).2.2
    ⟨"EMAIL_ADDRESS", 0, 17⟩ [] "XXXXXX" rfl rfl

/-- Claim C2: on every input that parses as a grid with at least one row,
the output grid keeps the row count and the per-row cell counts, and the
header row round-trips byte-identically through the serializer and the
parser without being scanned (the engines are arbitrary). -/
theorem claim_shape_header (E : Engines) (input : String) (hdr : List String)
    (rows outRows : List (List String)) (m : Counts)
    (hparse : csvParse input = .ok (hdr :: rows))
    (hproc : processRows E rows [] = .ok (outRows, m)) :
    deidentify_data E input = .ok (writeRowsStr (hdr :: outRows), buildReport m)
    ∧ (hdr :: outRows).length = (hdr :: rows).length
    ∧ List.Forall₂ (fun a b => List.length a = List.length b) (hdr :: rows) (hdr :: outRows)
    ∧ csvParse (writeRowsStr (hdr :: outRows)) = .ok (hdr :: outRows) := by
  refine ⟨?_, ?_, ?_, csv_roundtrip _⟩
  · unfold deidentify_data
    rw [hparse]
    show (match processRows E rows [] with
      | Except.error e => Except.error e
      | Except.ok (outRows2, total) =>
        Except.ok (writeRowsStr (hdr :: outRows2), buildReport total))
      = Except.ok (writeRowsStr (hdr :: outRows), buildReport m)
    rw [hproc]
  · have hlen := List.Forall₂.length_eq (processRows_shape E rows [] outRows m hproc)
    simp [hlen]
  · exact List.Forall₂.cons rfl (processRows_shape E rows [] outRows m hproc)

/-- Witness for claim C2 on the example scenario input. -/
theorem claim_shape_header_witness :
    deidentify_data c1Engine "name,email\r\nAlice,alice@example.com\r\n"
      = .ok ("name,email\r\nAlice,XXXXXX\r\n",
          "Summary Report\n--------------\nTotal Email Address found: 1\n") := by
  have h := (claim_shape_header c1Engine "name,email\r\nAlice,alice@example.com\r\n"
      ["name", "email"] [["Alice", "alice@example.com"]] [["Alice", "XXXXXX"]]
      [("EMAIL_ADDRESS", 1)] rfl rfl).1
  exact h.trans (by rfl)

/-- Claim C3 counterexample: a conforming masking engine that replaces the
detected span with XXXXXX can return a masked cell equal to the input
cell (input XXXXXX flagged entirely), so with one detected entity the
output cell does not differ from the input cell — the only-if half of the
differs-iff-positive claim fails. -/
theorem claim_count_mask_cex :
    ¬ (∀ (out : String) (res : List RecognizerResult),
        scanCell c3Engine "XXXXXX" = .ok (out, res) → 0 < res.length → out ≠ "XXXXXX") := by
  intro hclaim
  exact hclaim "XXXXXX" [⟨"CREDIT_CARD", 0, 6⟩] rfl (by simp) rfl

/-- Claim C3 amended: for a scanned cell returning N entities, the count
map total grows by exactly N (one increment per occurrence, a type
starting at one on first occurrence); the output cell is unchanged when
N is zero and is the Masking Engine result when N is positive (that
result may coincide with the input, as the counterexample shows); a
changed output cell implies N positive. -/
theorem claim_count_mask_amended (E : Engines) (cell out : String)
    (res : List RecognizerResult) (m : Counts)
    (hs : scanCell E cell = .ok (out, res)) :
    totalCount (res.foldl (fun acc r => bump acc r.entity_type) m) = totalCount m + res.length
    ∧ (∀ k, countOf m k = 0 → countOf (bump m k) k = 1)
    ∧ (res = [] → out = cell)
    ∧ (res ≠ [] → E.anonymize cell res default_operators = .ok out)
    ∧ (out ≠ cell → res ≠ []) := by
  obtain ⟨ha, hcase⟩ := scanCell_ok E cell out res hs
  refine ⟨totalCount_foldl_bump res m, ?_, ?_, ?_, ?_⟩
  · intro k hk
    rw [countOf_bump_self, hk]
  · intro hres
    rcases hcase with ⟨_, hout⟩ | ⟨hne, _⟩
    · exact hout
    · exact absurd hres hne
  · intro hres
    rcases hcase with ⟨hnil, _⟩ | ⟨_, hmask⟩
    · exact absurd hnil hres
    · exact hmask
  · intro hdiff
    rcases hcase with ⟨_, hout⟩ | ⟨hne, _⟩
    · exact absurd hout hdiff
    · exact hne

/-- Witness for the amended claim C3 at a concrete engine and cell. -/
theorem claim_count_mask_witness :
    scanCell c1Engine "alice@example.com"
      = .ok ("XXXXXX", [⟨"EMAIL_ADDRESS", 0, 17⟩])
    ∧ totalCount ([(⟨"EMAIL_ADDRESS", 0, 17⟩ : RecognizerResult)].foldl
        (fun acc r => bump acc r.entity_type) []) = totalCount ([] : Counts) + 1 := by
  refine ⟨rfl, ?_⟩
  exact (claim_count_mask_amended c1Engine "alice@example.com" "XXXXXX"
    [⟨"EMAIL_ADDRESS", 0, 17⟩] [] rfl).1

/-- Claim C4: a whitespace-only cell is copied through untrimmed, the
count map is untouched, and the whole run is insensitive to what the
engines would answer on blank cells — the detector is consulted only on
non-blank cells. -/
theorem claim_blank_passthrough (E : Engines) (cell : String) (rest : List String)
    (m : Counts) (hb : stripIsEmpty cell = true) :
    processRow E (cell :: rest) m =
      Except.map (fun p => (cell :: p.1, p.2)) (processRow E rest m)
    ∧ ∀ (E2 : Engines),
        (∀ s, stripIsEmpty s = false → E.analyze s "en" = E2.analyze s "en") →
        (∀ s res, stripIsEmpty s = false →
          E.anonymize s res default_operators = E2.anonymize s res default_operators) →
        ∀ (rows : List (List String)) (counts : Counts),
          processRows E rows counts = processRows E2 rows counts := by
  constructor
  · rw [processRow_cons_blank E cell rest m hb]
    show (match processRow E rest m with
      | Except.error e => Except.error e
      | Except.ok (rest', counts') => Except.ok (cell :: rest', counts'))
      = Except.map (fun p => (cell :: p.1, p.2)) (processRow E rest m)
    cases processRow E rest m with
    | error e => rfl
    | ok p =>
      obtain ⟨a, b⟩ := p
      rfl
  · intro E2 hA hM rows counts
    exact processRows_congr E E2 hA hM rows counts

/-- Witness for claim C4 on a one-space cell and on a no-break-space
cell, whitespace only in the Unicode sense. -/
theorem claim_blank_passthrough_witness :
    stripIsEmpty " " = true
    ∧ processRow noopEngine [" "] []
        = Except.map (fun p => (" " :: p.1, p.2)) (processRow noopEngine [] [])
    ∧ stripIsEmpty "\u00A0" = true
    ∧ processRow noopEngine ["\u00A0"] []
        = Except.map (fun p => ("\u00A0" :: p.1, p.2)) (processRow noopEngine [] []) := by
  refine ⟨rfl, ?_, rfl, ?_⟩
  · exact (claim_blank_passthrough noopEngine " " [] [] rfl).1
  · exact (claim_blank_passthrough noopEngine "\u00A0" [] [] rfl).1

/-- Claim C5: if the Entity Detector or the Masking Engine raises on some
non-blank data cell, the error is not caught per cell: the whole
invocation fails, and no output string and no report are returned. -/
theorem claim_failure_propagation (E : Engines) (input : String) (hdr : List String)
    (rows : List (List String)) (row : List String) (cell : String)
    (hparse : csvParse input = .ok (hdr :: rows)) (hrow : row ∈ rows)
    (hcell : cell ∈ row) (hnb : stripIsEmpty cell = false)
    (hfail : (∀ res, E.analyze cell "en" ≠ .ok res)
      ∨ (∃ r rs, E.analyze cell "en" = .ok (r :: rs)
          ∧ ∀ s, E.anonymize cell (r :: rs) default_operators ≠ .ok s)) :
    ∀ p, deidentify_data E input ≠ .ok p := by
  intro p hok
  obtain ⟨out, rep⟩ := p
  obtain ⟨hdr2, rows2, outRows, m, hparse2, hproc, _, _⟩ :=
    deidentify_ok_inversion E input out rep hok
  have hcons : hdr :: rows = hdr2 :: rows2 := by
    have h12 := hparse.symm.trans hparse2
    simpa using h12
  injection hcons with hh ht
  subst ht
  obtain ⟨res, ha, hcase⟩ :=
    processRows_ok_engines E rows [] (outRows, m) hproc row hrow cell hcell hnb
  rcases hfail with hfa | ⟨r, rs, har, hfm⟩
  · exact hfa res ha
  · have hres : r :: rs = res := by
      have := har.symm.trans ha
      simpa using this
    subst hres
    rcases hcase with hnil | ⟨masked, hmask⟩
    · simp at hnil
    · exact hfm masked hmask

/-- Witness for claim C5 with an engine whose analyze call raises. -/
theorem claim_failure_propagation_witness :
    deidentify_data failEngine "a\r\nb\r\n" ≠ .ok ("a\r\nb\r\n", "x") := by
  exact claim_failure_propagation failEngine "a\r\nb\r\n" ["a"] [["b"]] ["b"] "b"
    rfl (by simp) (by simp) rfl
    (Or.inl (fun res h => by simp [failEngine] at h))
    ("a\r\nb\r\n", "x")

/-- Claim C6: the empty input string has zero rows, so the invocation
fails (the `next(reader)` call raises) and neither output text nor report
is produced, whatever the engines are. -/
theorem claim_empty_input (E : Engines) :
    deidentify_data E "" = .error "StopIteration" := rfl

/-- Claim C7 counterexample: on the map with one EMAIL_ADDRESS entry the
rendered report line is not of the form stated in the claim (label then
colon then count then the word found); the code prefixes the label with
the word Total and puts the count after the words found and colon. -/
theorem claim_report_format_cex :
    buildReport [("EMAIL_ADDRESS", 1)]
      ≠ "Summary Report\n" ++ "--------------\n" ++ claimReportLine "EMAIL_ADDRESS" 1 ++ "\n" := by
  decide

/-- Claim C7 amended: the report is the fixed two-line header followed,
for a non-empty map, by exactly one line per entry, each formatted as the
word Total, the label with underscores replaced by spaces and each word
capitalized, then the words found and colon and the count; for an empty
map a single explicit no-PII line follows instead. -/
theorem claim_report_format_amended (m : Counts) (hm : m ≠ []) :
    buildReport m = "Summary Report\n" ++ "--------------\n" ++
        String.join (m.map fun kc =>
          "Total " ++ pyTitle (underscoreToSpace kc.1) ++ " found: " ++ Nat.repr kc.2 ++ "\n")
    ∧ buildReport [] = "Summary Report\n" ++ "--------------\n"
        ++ "No PII found in the provided data.\n" := by
  constructor
  · simp only [buildReport]
    rw [if_neg (by simpa [List.isEmpty_iff] using hm)]
    rw [report_foldl m ("Summary Report\n" ++ "--------------\n")]
    rfl
  · rfl

/-- Witness for the amended claim C7 at a concrete one-entry map. -/
theorem claim_report_format_witness :
    buildReport [("EMAIL_ADDRESS", 2)]
      = "Summary Report\n--------------\nTotal Email Address found: 2\n" := by
  have h := (claim_report_format_amended [("EMAIL_ADDRESS", 2)] (by simp)).1
  exact h.trans (by rfl)

/-- Claim C8 counterexample: for the header-only input with a bare LF the
output text is not equal to the input text — the writer terminates the
line with CRLF. -/
theorem claim_header_only_cex :
    deidentify_data noopEngine "name,email\n"
        = .ok ("name,email\r\n",
            "Summary Report\n--------------\nNo PII found in the provided data.\n")
    ∧ "name,email\r\n" ≠ "name,email\n" := by
  exact ⟨rfl, by decide⟩

/-- Claim C8 amended: a header-only input yields an empty count map and
the no-PII report, and the output equals the input up to line-ending
normalization: both the CRLF and the LF form of the input serialize to
the CRLF form, so the output equals the input exactly when the input
already uses CRLF. -/
theorem claim_header_only_amended (E : Engines) :
    deidentify_data E "name,email\r\n"
        = .ok ("name,email\r\n",
            "Summary Report\n--------------\nNo PII found in the provided data.\n")
    ∧ deidentify_data E "name,email\n"
        = .ok ("name,email\r\n",
            "Summary Report\n--------------\nNo PII found in the provided data.\n") :=
  ⟨rfl, rfl⟩

/-- Claim C9: when the detector flags nothing in any data cell of a
successfully processed input, the pipeline output is a fixed point:
running the pipeline on that output returns the output itself together
with the no-PII report. -/
theorem claim_no_pii_idempotent (E : Engines) (input out rep : String)
    (hdr : List String) (rows : List (List String))
    (hparse : csvParse input = .ok (hdr :: rows))
    (hclean : ∀ row ∈ rows, ∀ cell ∈ row, E.analyze cell "en" = .ok [])
    (hok : deidentify_data E input = .ok (out, rep)) :
    deidentify_data E out
      = .ok (out, "Summary Report\n--------------\nNo PII found in the provided data.\n") := by
  obtain ⟨hdr2, rows2, outRows, m, hparse2, hproc, hout, _⟩ :=
    deidentify_ok_inversion E input out rep hok
  have hcons : hdr :: rows = hdr2 :: rows2 := by
    have h12 := hparse.symm.trans hparse2
    simpa using h12
  injection hcons with hh ht
  subst hh
  subst ht
  have hnohit := processRows_nohit E rows [] hclean
  rw [hnohit] at hproc
  have hpair : rows = outRows ∧ ([] : Counts) = m := by simpa using hproc
  obtain ⟨ho, hm⟩ := hpair
  subst ho
  subst hm
  subst hout
  unfold deidentify_data
  rw [csv_roundtrip]
  show (match processRows E rows [] with
    | Except.error e => Except.error e
    | Except.ok (outRows2, total) =>
      Except.ok (writeRowsStr (hdr :: outRows2), buildReport total))
    = Except.ok (writeRowsStr (hdr :: rows),
        "Summary Report\n--------------\nNo PII found in the provided data.\n")
  rw [hnohit]
  rfl

/-- Witness for claim C9 on a clean two-row input. -/
theorem claim_no_pii_idempotent_witness :
    deidentify_data noopEngine "h1,h2\r\na,b\r\n"
      = .ok ("h1,h2\r\na,b\r\n",
          "Summary Report\n--------------\nNo PII found in the provided data.\n") := by
  exact claim_no_pii_idempotent noopEngine "h1,h2\r\na,b\r\n" "h1,h2\r\na,b\r\n"
    "Summary Report\n--------------\nNo PII found in the provided data.\n"
    ["h1", "h2"] [["a", "b"]] rfl (fun _ _ _ _ => rfl) rfl

/-- Claim C10: every value in the final count map is strictly positive, a
key is present exactly when the detector reported at least one entity of
that type in some non-blank data cell, and no count ever decreases
between the start and the end of a run. -/
theorem claim_counts_invariant (E : Engines) (rows outRows : List (List String)) (m : Counts)
    (hp : processRows E rows [] = .ok (outRows, m)) :
    (∀ kv ∈ m, 0 < kv.2)
    ∧ (∀ k : String, (∃ v, (k, v) ∈ m) ↔
        ∃ row ∈ rows, ∃ cell ∈ row, stripIsEmpty cell = false ∧
          ∃ res, E.analyze cell "en" = .ok res ∧ ∃ e ∈ res, e.entity_type = k)
    ∧ (∀ (m0 m2 : Counts) (rs2 : List (List String)),
        processRows E rows m0 = .ok (rs2, m2) → ∀ k, countOf m0 k ≤ countOf m2 k) := by
  have hpos : ∀ kv ∈ m, 0 < kv.2 :=
    processRows_pos E rows [] outRows m hp (by intro kv h; simp at h)
  refine ⟨hpos, ?_, ?_⟩
  · intro k
    have hcount := processRows_countOf E rows [] outRows m hp k
    rw [show countOf [] k = 0 from rfl, Nat.zero_add] at hcount
    constructor
    · rintro ⟨v, hv⟩
      have hposk : 0 < countOf m k := mem_countOf_pos m k v hpos hv
      rw [hcount] at hposk
      obtain ⟨x, hx, hxp⟩ := exists_pos_of_sum_pos _ hposk
      obtain ⟨row, hrow, hxeq⟩ := List.mem_map.mp hx
      subst hxeq
      obtain ⟨y, hy, hyp⟩ := exists_pos_of_sum_pos _ hxp
      obtain ⟨cell, hcell, hyeq⟩ := List.mem_map.mp hy
      subst hyeq
      refine ⟨row, hrow, cell, hcell, ?_⟩
      unfold cellHits at hyp
      by_cases hb : stripIsEmpty cell
      · rw [if_pos hb] at hyp
        simp at hyp
      · rw [if_neg hb] at hyp
        refine ⟨by simpa using hb, ?_⟩
        cases ha : E.analyze cell "en" with
        | error e =>
          rw [ha] at hyp
          simp at hyp
        | ok res =>
          rw [ha] at hyp
          simp only [] at hyp
          obtain ⟨e, he, hek⟩ := List.countP_pos_iff.mp hyp
          exact ⟨res, rfl, e, he, by simpa using hek⟩
    · rintro ⟨row, hrow, cell, hcell, hnb, res, ha, e, he, hek⟩
      have h1 : 0 < cellHits E k cell := by
        unfold cellHits
        rw [if_neg (by simp [hnb]), ha]
        exact List.countP_pos_iff.mpr ⟨e, he, by simp [hek]⟩
      have h2 : 0 < rowHits E k row := by
        unfold rowHits
        exact sum_pos_of_mem _ (cellHits E k cell)
          (List.mem_map_of_mem (cellHits E k) hcell) h1
      have h3 : 0 < gridHits E k rows := by
        unfold gridHits
        exact sum_pos_of_mem _ (rowHits E k row)
          (List.mem_map_of_mem (rowHits E k) hrow) h2
      rw [← hcount] at h3
      exact countOf_pos_mem m k h3
  · intro m0 m2 rs2 hp2 k
    rw [processRows_countOf E rows m0 rs2 m2 hp2 k]
    omega

/-- Witness for claim C10 on a concrete run with one detection. -/
theorem claim_counts_invariant_witness :
    processRows c1Engine [["alice@example.com"]] []
      = .ok ([["XXXXXX"]], [("EMAIL_ADDRESS", 1)])
    ∧ 0 < (1 : Nat) := by
  refine ⟨rfl, ?_⟩
  exact (claim_counts_invariant c1Engine [["alice@example.com"]] [["XXXXXX"]]
    [("EMAIL_ADDRESS", 1)] rfl).1 ("EMAIL_ADDRESS", 1) (by simp)

end PII
